import Mathlib

/-!
Shallow embedding of the core of `generate_docs.py` (Lich5 documentation
generator).  Texts are represented as `List Char`, line lists as
`List (List Char)`.  Python string primitives (`str.strip`, `in`,
`str.startswith`, `str.split('\n')`, `'\n'.join`, `list.insert`) are
modelled by executable Lean functions below.
-/

/-- Convert a string literal to our `List Char` text representation. -/
def cs (s : String) : List Char := s.data

/-- Python's default whitespace set for `str.strip()` (and regex `\s`). -/
def pyIsSpace (c : Char) : Bool :=
  c == ' ' || c == '\t' || c == '\n' || c == '\r' || c == '\x0b' || c == '\x0c'

/-- Python `str.strip()`: drop leading and trailing whitespace. -/
def pyStrip (l : List Char) : List Char :=
  ((l.dropWhile pyIsSpace).reverse.dropWhile pyIsSpace).reverse

/-- Python `str.startswith(pre)`. -/
def startsW (pre l : List Char) : Bool := List.isPrefixOf pre l

/-- Python substring containment `needle in hay`. -/
def containsSub (needle : List Char) : List Char → Bool
  | [] => needle.isEmpty
  | c :: t => needle.isPrefixOf (c :: t) || containsSub needle t

/-- Python `s.split('\n')`: always yields one more piece than the number
of newline characters; splitting the empty text gives `[[]]`. -/
def splitNl : List Char → List (List Char)
  | [] => [[]]
  | c :: t =>
    if c == '\n' then [] :: splitNl t
    else
      match splitNl t with
      | [] => [[c]]
      | h :: r => (c :: h) :: r

/-- Python `'\n'.join(lines)`. -/
def joinNl : List (List Char) → List Char
  | [] => []
  | [l] => l
  | l :: h :: r => l ++ '\n' :: joinNl (h :: r)

/-- Python `list.insert(idx, a)`: inserts before position `idx`, clamping
to the end when `idx` exceeds the length. -/
def pyInsert (idx : Nat) (a : α) : List α → List α
  | [] => [a]
  | x :: xs =>
    match idx with
    | 0 => a :: x :: xs
    | n + 1 => x :: pyInsert n a xs

/-- One annotation entry produced by the backend: `anchor`, `indent`,
`comment` fields of a JSON object (the well-typed case; entries whose
fields are missing or mistyped are skipped by the source's per-entry
`except` clause, which the empty-field skip below subsumes). -/
structure Entry where
  anchor : List Char
  indent : Nat
  comment : List Char
deriving DecidableEq, Repr

/-- The comment block built for one entry in `insert_comments`:
split the comment text on newlines; non-blank lines get exactly
`indent` leading spaces, blank lines become empty strings. -/
def buildBlock (indent : Nat) (commentText : List Char) : List (List Char) :=
  (splitNl commentText).map fun cl =>
    if (pyStrip cl).isEmpty then ([] : List Char)
    else List.replicate indent ' ' ++ cl

/-- The insertion loop of `insert_comments`:
`for offset, comment_line in enumerate(comment_lines): lines.insert(anchor_line_idx + offset, comment_line)`. -/
def insertBlock (idx : Nat) (block : List (List Char)) (lines : List (List Char)) :
    List (List Char) :=
  match block with
  | [] => lines
  | b :: rest => insertBlock (idx + 1) rest (pyInsert idx b lines)

/-- The anchor scan of `insert_comments`: first index `i` (counting from
`start`) whose line contains the anchor as a substring and is not in the
used set. -/
def findAnchor (anchor : List Char) (used : List Nat) (start : Nat) :
    List (List Char) → Option Nat
  | [] => none
  | l :: rest =>
    if containsSub anchor l && !(used.contains start) then some start
    else findAnchor anchor used (start + 1) rest

/-- Mutable state of the `insert_comments` loop: the line list and the
`inserted_at_lines` set (modelled as a list queried by membership). -/
structure SpliceSt where
  lines : List (List Char)
  used : List Nat
deriving Repr

/-- Body of the per-entry loop of `insert_comments`: strip the anchor and
comment fields, skip the entry if either is empty or the anchor is not
found on an unused line, otherwise insert the built block before the
matched line and add the matched index to the used set. -/
def processEntry (st : SpliceSt) (e : Entry) : SpliceSt :=
  if (pyStrip e.anchor).isEmpty || (pyStrip e.comment).isEmpty then st
  else
    match findAnchor (pyStrip e.anchor) st.used 0 st.lines with
    | none => st
    | some idx =>
      { lines := insertBlock idx (buildBlock e.indent (pyStrip e.comment)) st.lines,
        used := idx :: st.used }

/-- `insert_comments` at the line level: fold the per-entry step over the
entry list starting from an empty used set. -/
def insertCommentsLines (lines : List (List Char)) (comments : List Entry) :
    List (List Char) :=
  (comments.foldl processEntry { lines := lines, used := [] }).lines

/-- `insert_comments(original_content, comments)`: early-return the
original text when the entry list is empty, otherwise split into lines,
run the per-entry loop, and rejoin with newlines. -/
def insert_comments (content : List Char) (comments : List Entry) : List Char :=
  if comments.isEmpty then content
  else joinNl (insertCommentsLines (splitNl content) comments)

/-- The sublist of entries that get matched (and hence inserted) during a
run of the per-entry loop from state `st`, in run order. -/
def matchedEntries (st : SpliceSt) : List Entry → List Entry
  | [] => []
  | e :: rest =>
    if (pyStrip e.anchor).isEmpty || (pyStrip e.comment).isEmpty then
      matchedEntries st rest
    else
      match findAnchor (pyStrip e.anchor) st.used 0 st.lines with
      | none => matchedEntries st rest
      | some _ => e :: matchedEntries (processEntry st e) rest

/-! ## Fingerprinting: `compute_code_hash` -/

/-- The fixed YARD tag set recognised by `compute_code_hash`. -/
def yardTags : List (List Char) :=
  [cs "@param", cs "@return", cs "@example", cs "@note", cs "@see", cs "@yield"]

/-- Python `len(stripped) > 1 and stripped[1] == ' '`. -/
def secondIsSpace : List Char → Bool
  | _ :: c :: _ => c == ' '
  | _ => false

/-- The per-line keep decision of `compute_code_hash`: drop comment lines
carrying a YARD tag; drop comment lines whose second stripped character
is a space unless they are shebang lines or contain an encoding
declaration; keep everything else. -/
def hashKeeps (line : List Char) : Bool :=
  let s := pyStrip line
  if startsW (cs "#") s && yardTags.any (fun t => containsSub t s) then false
  else if startsW (cs "#") s && secondIsSpace s then
    startsW (cs "#!") s || containsSub (cs "coding:") s || containsSub (cs "encoding:") s
  else true

/-- The code lines retained by `compute_code_hash` before hashing. -/
def code_lines (content : List Char) : List (List Char) :=
  (splitNl content).filter hashKeeps

/-- The claim's description of the fingerprint's removal rule, written
from its words (the comparison definition for the refinement check): a
line is removed exactly when its trimmed form is a comment containing
one of the recognized documentation tags, or a comment whose marker is
followed by a space that is neither a shebang line nor an
encoding-declaration line; every other line is kept. -/
def keepLineSpec (line : List Char) : Bool :=
  !((startsW (cs "#") (pyStrip line) &&
       yardTags.any (fun t => containsSub t (pyStrip line))) ||
    (startsW (cs "# ") (pyStrip line) &&
       !(startsW (cs "#!") (pyStrip line)) &&
       !(containsSub (cs "coding:") (pyStrip line) ||
         containsSub (cs "encoding:") (pyStrip line))))

/-! SHA-256 over byte lists, with 32-bit words as `Nat` reduced modulo
`2 ^ 32` (`hashlib.sha256`). -/

/-- `2 ^ 32`, the word modulus. -/
def M32 : Nat := 4294967296

/-- Rotate a 32-bit word right by `b` bits. -/
def rotr (b x : Nat) : Nat := (x >>> b) ||| ((x <<< (32 - b)) % M32)

/-- Small sigma 0 of the SHA-256 message schedule. -/
def ssig0 (x : Nat) : Nat := rotr 7 x ^^^ rotr 18 x ^^^ (x >>> 3)

/-- Small sigma 1 of the SHA-256 message schedule. -/
def ssig1 (x : Nat) : Nat := rotr 17 x ^^^ rotr 19 x ^^^ (x >>> 10)

/-- The SHA-256 round constants (FIPS 180-4, in decimal). -/
def shaK : List Nat :=
  [1116352408, 1899447441, 3049323471, 3921009573, 961987163,
   1508970993, 2453635748, 2870763221, 3624381080, 310598401,
   607225278, 1426881987, 1925078388, 2162078206, 2614888103,
   3248222580, 3835390401, 4022224774, 264347078, 604807628,
   770255983, 1249150122, 1555081692, 1996064986, 2554220882,
   2821834349, 2952996808, 3210313671, 3336571891, 3584528711,
   113926993, 338241895, 666307205, 773529912, 1294757372,
   1396182291, 1695183700, 1986661051, 2177026350, 2456956037,
   2730485921, 2820302411, 3259730800, 3345764771, 3516065817,
   3600352804, 4094571909, 275423344, 430227734, 506948616,
   659060556, 883997877, 958139571, 1322822218, 1537002063,
   1747873779, 1955562222, 2024104815, 2227730452, 2361852424,
   2428436474, 2756734187, 3204031479, 3329325298]

/-- The eight 32-bit words of the SHA-256 working state. -/
structure H8 where
  a : Nat
  b : Nat
  c : Nat
  d : Nat
  e : Nat
  f : Nat
  g : Nat
  h : Nat
deriving Repr

/-- The SHA-256 initial hash value (FIPS 180-4, in decimal). -/
def shaInit : H8 :=
  ⟨1779033703, 3144134277, 1013904242, 2773480762,
   1359893119, 2600822924, 528734635, 1541459225⟩

/-- One SHA-256 compression round with schedule word `w` and constant `k`. -/
def shaRound (st : H8) (w k : Nat) : H8 :=
  let bs1 := rotr 6 st.e ^^^ rotr 11 st.e ^^^ rotr 25 st.e
  let ch := (st.e &&& st.f) ^^^ ((st.e ^^^ 0xffffffff) &&& st.g)
  let t1 := (st.h + bs1 + ch + k + w) % M32
  let bs0 := rotr 2 st.a ^^^ rotr 13 st.a ^^^ rotr 22 st.a
  let mj := (st.a &&& st.b) ^^^ (st.a &&& st.c) ^^^ (st.b &&& st.c)
  let t2 := (bs0 + mj) % M32
  ⟨(t1 + t2) % M32, st.a, st.b, st.c, (st.d + t1) % M32, st.e, st.f, st.g⟩

/-- Pack big-endian groups of four bytes into 32-bit words. -/
def toWords : List Nat → List Nat
  | b0 :: b1 :: b2 :: b3 :: rest =>
    (b0 * 16777216 + b1 * 65536 + b2 * 256 + b3) :: toWords rest
  | _ => []

/-- Extend a 16-word block schedule by `fuel` additional words. -/
def extendW : Nat → List Nat → List Nat
  | 0, ws => ws
  | n + 1, ws =>
    let t := (ssig1 (ws.getD (ws.length - 2) 0) + ws.getD (ws.length - 7) 0 +
      ssig0 (ws.getD (ws.length - 15) 0) + ws.getD (ws.length - 16) 0) % M32
    extendW n (ws ++ [t])

/-- Compress one 64-byte block into the running hash state. -/
def processBlock (st : H8) (block : List Nat) : H8 :=
  let ws := extendW 48 (toWords block)
  let r := (ws.zip shaK).foldl (fun s wk => shaRound s wk.1 wk.2) st
  ⟨(st.a + r.a) % M32, (st.b + r.b) % M32, (st.c + r.c) % M32, (st.d + r.d) % M32,
   (st.e + r.e) % M32, (st.f + r.f) % M32, (st.g + r.g) % M32, (st.h + r.h) % M32⟩

/-- The 8-byte big-endian bit-length trailer of SHA-256 padding. -/
def lenBytes (n : Nat) : List Nat :=
  [(n >>> 56) &&& 255, (n >>> 48) &&& 255, (n >>> 40) &&& 255, (n >>> 32) &&& 255,
   (n >>> 24) &&& 255, (n >>> 16) &&& 255, (n >>> 8) &&& 255, n &&& 255]

/-- SHA-256 padding: append `0x80`, zero bytes to 56 mod 64, then the
message bit length. -/
def shaPad (msg : List Nat) : List Nat :=
  msg ++ 0x80 :: List.replicate ((64 - ((msg.length + 9) % 64)) % 64) 0 ++
    lenBytes (8 * msg.length)

/-- Cut a byte list into 64-byte chunks (`fuel` bounds the recursion). -/
def chunks64 : Nat → List Nat → List (List Nat)
  | 0, _ => []
  | _, [] => []
  | n + 1, l => l.take 64 :: chunks64 n (l.drop 64)

/-- The four big-endian bytes of a 32-bit word. -/
def wordBytes (w : Nat) : List Nat :=
  [(w >>> 24) &&& 255, (w >>> 16) &&& 255, (w >>> 8) &&& 255, w &&& 255]

/-- SHA-256 digest of a byte list, as a list of 32 bytes. -/
def sha256 (msg : List Nat) : List Nat :=
  let padded := shaPad msg
  let r := (chunks64 padded.length padded).foldl processBlock shaInit
  wordBytes r.a ++ wordBytes r.b ++ wordBytes r.c ++ wordBytes r.d ++
    wordBytes r.e ++ wordBytes r.f ++ wordBytes r.g ++ wordBytes r.h

/-- The sixteen lowercase hex digit characters. -/
def hexChars : List Char := cs "0123456789abcdef"

/-- The hex digit for a nibble. -/
def hexDigit (n : Nat) : Char := hexChars.getD n '0'

/-- The two hex characters of one byte. -/
def byteHex (b : Nat) : List Char := [hexDigit (b / 16 % 16), hexDigit (b % 16)]

/-- `hashlib.sha256(bytes).hexdigest()` as a character list. -/
def sha256hex (msg : List Nat) : List Char := ((sha256 msg).map byteHex).flatten

/-- UTF-8 encoding of one character (`str.encode('utf-8')`, per scalar). -/
def utf8EncodeChar (c : Char) : List Nat :=
  let n := c.toNat
  if n < 0x80 then [n]
  else if n < 0x800 then
    [0xc0 ||| (n >>> 6), 0x80 ||| (n &&& 0x3f)]
  else if n < 0x10000 then
    [0xe0 ||| (n >>> 12), 0x80 ||| ((n >>> 6) &&& 0x3f), 0x80 ||| (n &&& 0x3f)]
  else
    [0xf0 ||| (n >>> 18), 0x80 ||| ((n >>> 12) &&& 0x3f),
     0x80 ||| ((n >>> 6) &&& 0x3f), 0x80 ||| (n &&& 0x3f)]

/-- UTF-8 encoding of a text. -/
def utf8Encode (l : List Char) : List Nat := (l.map utf8EncodeChar).flatten

/-- `compute_code_hash(content)`: join the retained code lines with
newlines, SHA-256 the UTF-8 bytes, and keep the first 16 hex digits. -/
def compute_code_hash (content : List Char) : List Char :=
  (sha256hex (utf8Encode (joinNl (code_lines content)))).take 16

/-! ## Incremental skip decision: `is_file_processed` -/

/-- One value of the manifest's `processed_files` map. -/
structure PFInfo where
  timestamp : List Char
  provider : List Char
  content_hash : Option (List Char)
  file_name : List Char
deriving DecidableEq, Repr

/-- The manifest: the `processed_files` map (association list in
insertion order, as a JSON object / Python dict) and the `failed_files`
list. -/
structure Manifest where
  processed_files : List (List Char × PFInfo)
  failed_files : List (List Char)
deriving DecidableEq, Repr

/-- Python dict lookup `m[path]` / `path in m` on the association list. -/
def lookupPF (path : List Char) : List (List Char × PFInfo) → Option PFInfo
  | [] => none
  | (k, v) :: rest => if k = path then some v else lookupPF path rest

/-- Python dict assignment `m[path] = info`: overwrite in place if the
key exists, otherwise append. -/
def upsertPF (path : List Char) (info : PFInfo) :
    List (List Char × PFInfo) → List (List Char × PFInfo)
  | [] => [(path, info)]
  | (k, v) :: rest =>
    if k = path then (k, info) :: rest else (k, v) :: upsertPF path info rest

/-- The environment `is_file_processed` consults for one file: the
incremental flag, the manifest's `processed_files` map, whether the
`documented/` output artifact exists, and the result of reading the
source file (`none` models a read error / raised exception). -/
structure SkipCtx where
  incremental : Bool
  processed_files : List (List Char × PFInfo)
  output_exists : Bool
  read_content : Option (List Char)

/-- `is_file_processed(file_path)`: false unless incremental mode is on,
a manifest entry exists, the output file exists, the source file reads
successfully, and the fresh `compute_code_hash` equals the stored hash
(a stored `None` hash never equals the fresh string hash). -/
def is_file_processed (ctx : SkipCtx) (path : List Char) : Bool :=
  if !ctx.incremental then false
  else
    match lookupPF path ctx.processed_files with
    | none => false
    | some info =>
      if !ctx.output_exists then false
      else
        match ctx.read_content with
        | none => false
        | some content =>
          let current := compute_code_hash content
          if info.content_hash ≠ some current then false else true

/-! ## Manifest updates: `mark_file_processed` -/

/-- `mark_file_processed(file_path, success, content)`: on success,
upsert a `processed_files` record whose hash comes from the `content`
argument when it is truthy (non-`None` and non-empty), else from reading
the file (`read_content`, `none` modelling a read error, which leaves
the hash `None`); on failure, append the path to `failed_files` unless
it is already present.  The trailing `save_manifest()` call is I/O and
returns the same in-memory manifest, so it is not modelled. -/
def mark_file_processed (m : Manifest) (path : List Char) (success : Bool)
    (content : Option (List Char)) (read_content : Option (List Char))
    (ts prov fname : List Char) : Manifest :=
  if success then
    let ch : Option (List Char) :=
      match content with
      | some c => if c.isEmpty then read_content.map compute_code_hash
                  else some (compute_code_hash c)
      | none => read_content.map compute_code_hash
    { m with processed_files :=
        upsertPF path ⟨ts, prov, ch, fname⟩ m.processed_files }
  else
    if m.failed_files.contains path then m
    else { m with failed_files := m.failed_files ++ [path] }

/-! ## Backend response ingestion: `extract_comments_json` -/

/-- JSON values as parsed by `json.loads`.  Number and string payloads
keep their source lexeme: the claims under verification depend only on
parse success and on whether the top-level value is an array. -/
inductive Json where
  | null : Json
  | bool (b : Bool) : Json
  | num (lexeme : List Char) : Json
  | str (lexeme : List Char) : Json
  | arr (items : List Json) : Json
  | obj (fields : List (List Char × Json)) : Json

/-- JSON whitespace (the only whitespace `json.loads` skips). -/
def jsonWs (c : Char) : Bool := c == ' ' || c == '\t' || c == '\n' || c == '\r'

/-- Drop leading JSON whitespace. -/
def skipWs (l : List Char) : List Char := l.dropWhile jsonWs

/-- Parse the digits `0 | [1-9][0-9]*` of a JSON integer part, returning
the consumed lexeme and remainder. -/
def parseIntPart : List Char → Option (List Char × List Char)
  | [] => none
  | c :: rest =>
    if c == '0' then some ([c], rest)
    else if c.isDigit then
      some (c :: rest.takeWhile Char.isDigit, rest.dropWhile Char.isDigit)
    else none

/-- Parse the optional fraction `.[0-9]+`. -/
def parseFrac : List Char → Option (List Char × List Char)
  | '.' :: rest =>
    let ds := rest.takeWhile Char.isDigit
    if ds.isEmpty then none else some ('.' :: ds, rest.dropWhile Char.isDigit)
  | l => some ([], l)

/-- Parse the optional exponent `[eE][+-]?[0-9]+`. -/
def parseExp (l : List Char) : Option (List Char × List Char) :=
  match l with
  | c :: rest =>
    if c == 'e' || c == 'E' then
      let (sgn, rest2) :=
        match rest with
        | s :: r2 => if s == '+' || s == '-' then ([s], r2) else ([], rest)
        | [] => ([], rest)
      let ds := rest2.takeWhile Char.isDigit
      if ds.isEmpty then none
      else some (c :: sgn ++ ds, rest2.dropWhile Char.isDigit)
    else some ([], l)
  | [] => some ([], l)

/-- Parse a JSON number lexeme (`NUMBER_RE` of the Python scanner),
including the leading minus sign. -/
def parseNum (l : List Char) : Option (List Char × List Char) :=
  let (neg, l1) :=
    match l with
    | '-' :: rest => (([ '-' ] : List Char), rest)
    | _ => (([] : List Char), l)
  match parseIntPart l1 with
  | none => none
  | some (ip, l2) =>
    match parseFrac l2 with
    | none => none
    | some (fp, l3) =>
      match parseExp l3 with
      | none => none
      | some (ep, l4) => some (neg ++ ip ++ fp ++ ep, l4)

/-- Is `c` one of the four hex-digit escape characters of `\uXXXX`? -/
def isHexEsc (c : Char) : Bool :=
  c.isDigit || (c ≥ 'a' && c ≤ 'f') || (c ≥ 'A' && c ≤ 'F')

/-- Parse the body of a JSON string after the opening quote, in strict
mode: raw control characters below `0x20` are rejected, escapes are
validated; the raw (undecoded) lexeme is returned. -/
def parseStrBody : List Char → Option (List Char × List Char)
  | [] => none
  | c :: rest =>
    if c == '"' then some ([], rest)
    else if c == '\\' then
      match rest with
      | [] => none
      | e :: rest2 =>
        if e == '"' || e == '\\' || e == '/' || e == 'b' || e == 'f' ||
            e == 'n' || e == 'r' || e == 't' then
          match parseStrBody rest2 with
          | none => none
          | some (body, rem) => some (c :: e :: body, rem)
        else if e == 'u' then
          match rest2 with
          | h1 :: h2 :: h3 :: h4 :: rest3 =>
            if isHexEsc h1 && isHexEsc h2 && isHexEsc h3 && isHexEsc h4 then
              match parseStrBody rest3 with
              | none => none
              | some (body, rem) => some (c :: e :: h1 :: h2 :: h3 :: h4 :: body, rem)
            else none
          | _ => none
        else none
    else if c.toNat < 0x20 then none
    else
      match parseStrBody rest with
      | none => none
      | some (body, rem) => some (c :: body, rem)

mutual

/-- Parse one JSON value (fuelled recursion; the fuel passed at top
level always suffices because every recursive call consumes at least
one input character first). -/
def parseVal : Nat → List Char → Option (Json × List Char)
  | 0, _ => none
  | fuel + 1, l =>
    match skipWs l with
    | [] => none
    | c :: rest =>
      if c == '"' then
        match parseStrBody rest with
        | none => none
        | some (body, rem) => some (.str body, rem)
      else if c == '{' then parseObjItems fuel true rest
      else if c == '[' then parseArrItems fuel true rest
      else if startsW (cs "true") (c :: rest) then
        some (.bool true, (c :: rest).drop 4)
      else if startsW (cs "false") (c :: rest) then
        some (.bool false, (c :: rest).drop 5)
      else if startsW (cs "null") (c :: rest) then
        some (.null, (c :: rest).drop 4)
      else
        match parseNum (c :: rest) with
        | some (lex, rem) => some (.num lex, rem)
        | none =>
          if startsW (cs "NaN") (c :: rest) then
            some (.num (cs "NaN"), (c :: rest).drop 3)
          else if startsW (cs "Infinity") (c :: rest) then
            some (.num (cs "Infinity"), (c :: rest).drop 8)
          else if startsW (cs "-Infinity") (c :: rest) then
            some (.num (cs "-Infinity"), (c :: rest).drop 9)
          else none

/-- Parse the items of a JSON array after `[`; `first` marks whether no
item has been consumed yet (so `]` may close immediately). -/
def parseArrItems : Nat → Bool → List Char → Option (Json × List Char)
  | 0, _, _ => none
  | fuel + 1, first, l =>
    match skipWs l with
    | [] => none
    | c :: rest =>
      if first && c == ']' then some (.arr [], rest)
      else
        match parseVal fuel (c :: rest) with
        | none => none
        | some (v, rem) =>
          match skipWs rem with
          | ']' :: rem2 => some (.arr [v], rem2)
          | ',' :: rem2 =>
            match parseArrItems fuel false rem2 with
            | some (.arr vs, rem3) => some (.arr (v :: vs), rem3)
            | _ => none
          | _ => none

/-- Parse the members of a JSON object after `{`. -/
def parseObjItems : Nat → Bool → List Char → Option (Json × List Char)
  | 0, _, _ => none
  | fuel + 1, first, l =>
    match skipWs l with
    | [] => none
    | c :: rest =>
      if first && c == '}' then some (.obj [], rest)
      else if c == '"' then
        match parseStrBody rest with
        | none => none
        | some (key, rem) =>
          match skipWs rem with
          | ':' :: rem2 =>
            match parseVal fuel rem2 with
            | none => none
            | some (v, rem3) =>
              match skipWs rem3 with
              | '}' :: rem4 => some (.obj [(key, v)], rem4)
              | ',' :: rem4 =>
                match parseObjItems fuel false rem4 with
                | some (.obj kvs, rem5) => some (.obj ((key, v) :: kvs), rem5)
                | _ => none
              | _ => none
          | _ => none
      else none

end

/-- `json.loads(text)`: parse one value, then require only whitespace to
remain (otherwise "Extra data"); `none` models `json.JSONDecodeError`. -/
def jsonLoads (l : List Char) : Option Json :=
  match parseVal (l.length + 1) l with
  | none => none
  | some (v, rest) => if (skipWs rest).isEmpty then some v else none

/-- Index of the first occurrence of `needle` as a substring, counting
from `i`. -/
def findSubAux (needle : List Char) (i : Nat) : List Char → Option Nat
  | [] => if needle.isEmpty then some i else none
  | c :: t =>
    if needle.isPrefixOf (c :: t) then some i else findSubAux needle (i + 1) t

/-- The first capture of `re.findall(r'```json\s*(.*?)```', response,
re.DOTALL)`, with the greedily skipped leading whitespace retained in
the capture (the caller strips the capture, so this is equivalent):
the text between the first `` ```json `` marker and the next `` ``` ``
fence after it.  If no closing fence follows the first marker then no
later marker can match either (a later `` ```json `` would itself
contain `` ``` ``), so the regex has no match at all. -/
def fencedCapture (s : List Char) : Option (List Char) :=
  match findSubAux (cs "```json") 0 s with
  | none => none
  | some i =>
    let rest := s.drop (i + 7)
    match findSubAux (cs "```") 0 rest with
    | none => none
    | some j => some (rest.take j)

/-- The lazy tail `.*?\}\s*\]` of the bracket regex: find the first `}`
that is followed, after regex whitespace, by `]`, and return the
remainder of the input after that `]`. -/
def findCloseBrace : List Char → Option (List Char)
  | [] => none
  | c :: rest =>
    if c == '}' then
      match rest.dropWhile pyIsSpace with
      | ']' :: r2 => some r2
      | _ => findCloseBrace rest
    else findCloseBrace rest

/-- Try to match `\[\s*\{.*?\}\s*\]` anchored at the head of `l`,
returning the remainder after the match. -/
def bracketMatchAt (l : List Char) : Option (List Char) :=
  match l with
  | '[' :: rest =>
    match rest.dropWhile pyIsSpace with
    | '{' :: rest2 => findCloseBrace rest2
    | _ => none
  | _ => none

/-- `re.search(r'\[\s*\{.*?\}\s*\]', response, re.DOTALL).group(0)`:
the leftmost match of the bracket-delimited array pattern. -/
def bracketSearch : List Char → Option (List Char)
  | [] => none
  | c :: t =>
    match bracketMatchAt (c :: t) with
    | some suffix => some ((c :: t).take ((c :: t).length - suffix.length))
    | none => bracketSearch t

/-- The text `extract_comments_json` hands to `json.loads`: the stripped
content of the first fenced ```` ```json ```` block when one exists,
else the first bracket-delimited array match, else the whole stripped
response. -/
def chooseJsonText (response : List Char) : List Char :=
  match fencedCapture response with
  | some cap => pyStrip cap
  | none =>
    match bracketSearch response with
    | some seg => seg
    | none => pyStrip response

/-- `extract_comments_json(response)`: parse the chosen text; a
`JSONDecodeError` is caught and yields `ok []`; a successfully parsed
non-list value hits `raise ValueError("Expected JSON array")`, which the
`except json.JSONDecodeError` clause does not catch, so it propagates
to the caller (modelled as `Except.error`). -/
def extract_comments_json (response : List Char) : Except (List Char) (List Json) :=
  match jsonLoads (chooseJsonText response) with
  | none => Except.ok []
  | some (Json.arr items) => Except.ok items
  | some _ => Except.error (cs "Expected JSON array")

/-! ## Sanity checks of the embedding on concrete inputs -/

example :
    insertCommentsLines [cs "def foo(x)", cs "end"]
      [⟨cs "def foo(x)", 0, cs "# does foo\n# @param x"⟩] =
      [cs "# does foo", cs "# @param x", cs "def foo(x)", cs "end"] := by
  decide

example : sha256hex (utf8Encode (cs "abc")) =
    cs "ba7816bf8f01cfea414140de5dae2223b00361a396177a9cb410ff61f20015ad" := by
  decide

example : jsonLoads (cs "[\x7b\"anchor\": \"x\", \"indent\": 2\x7d]") =
    some (Json.arr [Json.obj [(cs "anchor", Json.str (cs "x")),
      (cs "indent", Json.num (cs "2"))]]) := by rfl

example : extract_comments_json (cs "garbage response") = Except.ok [] := by rfl

example : chooseJsonText (cs "text ```json\n[1]\n``` tail [ \x7b\"a\":1\x7d ]") =
    cs "[1]" := by rfl

example : chooseJsonText (cs "head [ \x7b\"a\": 1\x7d ] tail") =
    cs "[ \x7b\"a\": 1\x7d ]" := by rfl

/-! ## Lemmas about `pyInsert` and `insertBlock` -/

theorem pyInsert_length (idx : Nat) (a : α) (l : List α) :
    (pyInsert idx a l).length = l.length + 1 := by
  induction l generalizing idx with
  | nil => simp [pyInsert]
  | cons x xs ih =>
    cases idx with
    | zero => simp [pyInsert]
    | succ n => simp [pyInsert, ih]

theorem sublist_pyInsert (idx : Nat) (a : α) (l : List α) :
    List.Sublist l (pyInsert idx a l) := by
  induction l generalizing idx with
  | nil => exact List.nil_sublist _
  | cons x xs ih =>
    cases idx with
    | zero => exact List.Sublist.cons _ (List.Sublist.refl _)
    | succ n => exact List.Sublist.cons₂ _ (ih n)

theorem filter_pyInsert (p : α → Bool) (idx : Nat) (a : α) (l : List α)
    (ha : p a = false) : (pyInsert idx a l).filter p = l.filter p := by
  induction l generalizing idx with
  | nil => simp [pyInsert, ha]
  | cons x xs ih =>
    cases idx with
    | zero => simp [pyInsert, List.filter_cons, ha]
    | succ n => simp [pyInsert, List.filter_cons, ih]

theorem mem_pyInsert (idx : Nat) (a x : α) (l : List α)
    (hx : x ∈ pyInsert idx a l) : x = a ∨ x ∈ l := by
  induction l generalizing idx with
  | nil =>
    simp [pyInsert] at hx
    exact Or.inl hx
  | cons y ys ih =>
    cases idx with
    | zero =>
      simp [pyInsert] at hx
      rcases hx with h | h | h
      · exact Or.inl h
      · exact Or.inr (by simp [h])
      · exact Or.inr (by simp [h])
    | succ n =>
      simp [pyInsert] at hx
      rcases hx with h | h
      · exact Or.inr (by simp [h])
      · rcases ih n h with h2 | h2
        · exact Or.inl h2
        · exact Or.inr (by simp [h2])

theorem insertBlock_length (block : List (List Char)) (idx : Nat)
    (lines : List (List Char)) :
    (insertBlock idx block lines).length = lines.length + block.length := by
  induction block generalizing idx lines with
  | nil => simp [insertBlock]
  | cons b rest ih =>
    simp [insertBlock, ih, pyInsert_length]
    omega

theorem sublist_insertBlock (block : List (List Char)) (idx : Nat)
    (lines : List (List Char)) :
    List.Sublist lines (insertBlock idx block lines) := by
  induction block generalizing idx lines with
  | nil => exact List.Sublist.refl _
  | cons b rest ih =>
    exact List.Sublist.trans (sublist_pyInsert idx b lines)
      (ih (idx + 1) (pyInsert idx b lines))

theorem filter_insertBlock (p : List Char → Bool) (block : List (List Char))
    (idx : Nat) (lines : List (List Char))
    (hb : ∀ b ∈ block, p b = false) :
    (insertBlock idx block lines).filter p = lines.filter p := by
  induction block generalizing idx lines with
  | nil => rfl
  | cons b rest ih =>
    rw [insertBlock, ih (idx + 1) (pyInsert idx b lines)
      (fun x hx => hb x (by simp [hx]))]
    exact filter_pyInsert p idx b lines (hb b (by simp))

theorem mem_insertBlock (block : List (List Char)) (idx : Nat)
    (lines : List (List Char)) (x : List Char)
    (hx : x ∈ insertBlock idx block lines) : x ∈ block ∨ x ∈ lines := by
  induction block generalizing idx lines with
  | nil => exact Or.inr hx
  | cons b rest ih =>
    rcases ih (idx + 1) (pyInsert idx b lines) hx with h | h
    · exact Or.inl (by simp [h])
    · rcases mem_pyInsert idx b x lines h with h2 | h2
      · exact Or.inl (by simp [h2])
      · exact Or.inr h2

/-! ## Lemmas about `splitNl` and `joinNl` -/

theorem splitNl_ne_nil (s : List Char) : splitNl s ≠ [] := by
  cases s with
  | nil => simp [splitNl]
  | cons c t =>
    by_cases hc : c == '\n'
    · simp [splitNl, hc]
    · simp only [splitNl, hc, if_false, Bool.false_eq_true]
      cases splitNl t <;> simp

theorem no_newline_of_mem_splitNl (s l : List Char) (hl : l ∈ splitNl s) :
    '\n' ∉ l := by
  induction s generalizing l with
  | nil =>
    simp [splitNl] at hl
    simp [hl]
  | cons c t ih =>
    by_cases hc : (c == '\n') = true
    · rw [splitNl, if_pos hc] at hl
      rcases List.mem_cons.mp hl with hl | hl
      · simp [hl]
      · exact ih l hl
    · rw [splitNl, if_neg hc] at hl
      have hcne : c ≠ '\n' := by
        intro h
        simp [h] at hc
      cases hsp : splitNl t with
      | nil =>
        rw [hsp] at hl
        rcases List.mem_singleton.mp hl with rfl
        intro hmem
        rcases List.mem_singleton.mp hmem with rfl
        exact hcne rfl
      | cons hh rr =>
        rw [hsp] at hl
        rcases List.mem_cons.mp hl with hl | hl
        · subst hl
          intro hmem
          rcases List.mem_cons.mp hmem with hm | hm
          · exact hcne hm.symm
          · exact ih hh (by simp [hsp]) hm
        · exact ih l (by simp [hsp, hl])

theorem splitNl_of_no_newline (l : List Char) (h : '\n' ∉ l) :
    splitNl l = [l] := by
  induction l with
  | nil => rfl
  | cons c t ih =>
    have hc : ¬(c == '\n') = true := by
      simp only [beq_iff_eq]
      intro he
      exact h (by simp [he])
    rw [splitNl, if_neg hc, ih (fun hm => h (by simp [hm]))]

theorem splitNl_append_newline (l rest : List Char) (h : '\n' ∉ l) :
    splitNl (l ++ '\n' :: rest) = l :: splitNl rest := by
  induction l with
  | nil => simp [splitNl]
  | cons c t ih =>
    have hc : ¬(c == '\n') = true := by
      simp only [beq_iff_eq]
      intro he
      exact h (by simp [he])
    rw [List.cons_append, splitNl, if_neg hc,
      ih (fun hm => h (by simp [hm]))]

theorem splitNl_joinNl (ls : List (List Char)) (hne : ls ≠ [])
    (h : ∀ l ∈ ls, '\n' ∉ l) : splitNl (joinNl ls) = ls := by
  induction ls with
  | nil => exact absurd rfl hne
  | cons l tail ih =>
    cases tail with
    | nil =>
      show splitNl (joinNl [l]) = [l]
      rw [joinNl]
      exact splitNl_of_no_newline l (h l (by simp))
    | cons hh rr =>
      show splitNl (joinNl (l :: hh :: rr)) = l :: hh :: rr
      rw [joinNl, splitNl_append_newline l _ (h l (by simp)),
        ih (by simp) (fun x hx => h x (by simp [hx]))]

/-! ## Lemmas about `buildBlock` and the splice fold -/

theorem no_newline_of_mem_buildBlock (indent : Nat) (ct b : List Char)
    (hb : b ∈ buildBlock indent ct) : '\n' ∉ b := by
  unfold buildBlock at hb
  rcases List.mem_map.mp hb with ⟨cl, hcl, hbe⟩
  by_cases he : (pyStrip cl).isEmpty = true
  · rw [if_pos he] at hbe
    subst hbe
    simp
  · rw [if_neg he] at hbe
    subst hbe
    intro hmem
    rcases List.mem_append.mp hmem with hm | hm
    · have := List.eq_of_mem_replicate hm
      simp at this
    · exact no_newline_of_mem_splitNl ct cl hcl hm

theorem processEntry_skip_empty (st : SpliceSt) (e : Entry)
    (h : ((pyStrip e.anchor).isEmpty || (pyStrip e.comment).isEmpty) = true) :
    processEntry st e = st := by
  unfold processEntry
  rw [if_pos h]

theorem processEntry_skip_nomatch (st : SpliceSt) (e : Entry)
    (h : findAnchor (pyStrip e.anchor) st.used 0 st.lines = none) :
    processEntry st e = st := by
  unfold processEntry
  by_cases h1 : ((pyStrip e.anchor).isEmpty || (pyStrip e.comment).isEmpty) = true
  · rw [if_pos h1]
  · rw [if_neg h1]
    simp only [h]

/-- Exhaustive description of one step of the `insert_comments` loop:
either the entry is skipped and the state is unchanged, or a match was
found and the built block is inserted before it. -/
theorem processEntry_cases (st : SpliceSt) (e : Entry) :
    processEntry st e = st ∨
    ∃ idx, ((pyStrip e.anchor).isEmpty || (pyStrip e.comment).isEmpty) = false ∧
      findAnchor (pyStrip e.anchor) st.used 0 st.lines = some idx ∧
      processEntry st e =
        { lines := insertBlock idx (buildBlock e.indent (pyStrip e.comment)) st.lines,
          used := idx :: st.used } := by
  by_cases h1 : ((pyStrip e.anchor).isEmpty || (pyStrip e.comment).isEmpty) = true
  · exact Or.inl (processEntry_skip_empty st e h1)
  · cases hf : findAnchor (pyStrip e.anchor) st.used 0 st.lines with
    | none => exact Or.inl (processEntry_skip_nomatch st e hf)
    | some idx =>
      refine Or.inr ⟨idx, by simpa using h1, rfl, ?_⟩
      unfold processEntry
      rw [if_neg h1]
      simp only [hf]

/-- Synchronised unfolding of `matchedEntries` on a cons cell, matched
case. -/
theorem matchedEntries_cons_matched (st : SpliceSt) (e : Entry) (rest : List Entry)
    (h1 : ((pyStrip e.anchor).isEmpty || (pyStrip e.comment).isEmpty) = false)
    (idx : Nat) (hf : findAnchor (pyStrip e.anchor) st.used 0 st.lines = some idx) :
    matchedEntries st (e :: rest) = e :: matchedEntries (processEntry st e) rest := by
  conv_lhs => rw [matchedEntries]
  rw [if_neg (by simp [h1])]
  simp only [hf]

/-- Synchronised unfolding of `matchedEntries` on a cons cell, skipped
cases. -/
theorem matchedEntries_cons_skip (st : SpliceSt) (e : Entry) (rest : List Entry)
    (h : processEntry st e = st) :
    matchedEntries st (e :: rest) = matchedEntries st rest := by
  conv_lhs => rw [matchedEntries]
  by_cases h1 : ((pyStrip e.anchor).isEmpty || (pyStrip e.comment).isEmpty) = true
  · rw [if_pos h1]
  · rw [if_neg h1]
    cases hf : findAnchor (pyStrip e.anchor) st.used 0 st.lines with
    | none => rfl
    | some idx =>
      exfalso
      have hc : processEntry st e =
          { lines := insertBlock idx (buildBlock e.indent (pyStrip e.comment)) st.lines,
            used := idx :: st.used } := by
        unfold processEntry
        rw [if_neg h1]
        simp only [hf]
      rw [h] at hc
      have : st.used = idx :: st.used := congrArg SpliceSt.used hc
      have : st.used.length = st.used.length + 1 := by
        conv_lhs => rw [this]
        simp
      omega

theorem foldl_lines_sublist (es : List Entry) (st : SpliceSt) :
    List.Sublist st.lines (es.foldl processEntry st).lines := by
  induction es generalizing st with
  | nil => exact List.Sublist.refl _
  | cons e rest ih =>
    refine List.Sublist.trans ?_ (ih (processEntry st e))
    rcases processEntry_cases st e with h | ⟨idx, _, _, h⟩
    · rw [h]
    · rw [h]
      exact sublist_insertBlock _ idx st.lines

theorem foldl_lines_length (es : List Entry) (st : SpliceSt) :
    (es.foldl processEntry st).lines.length =
      st.lines.length +
        ((matchedEntries st es).map
          (fun e => (buildBlock e.indent (pyStrip e.comment)).length)).sum := by
  induction es generalizing st with
  | nil => simp [matchedEntries]
  | cons e rest ih =>
    rcases processEntry_cases st e with h | ⟨idx, h1, hf, h⟩
    · rw [List.foldl_cons, h, matchedEntries_cons_skip st e rest h, ih st]
    · rw [List.foldl_cons, ih (processEntry st e),
        matchedEntries_cons_matched st e rest h1 idx hf]
      rw [h]
      simp [insertBlock_length]
      omega

theorem foldl_eq_matched (es : List Entry) (st : SpliceSt) :
    es.foldl processEntry st = (matchedEntries st es).foldl processEntry st := by
  induction es generalizing st with
  | nil => rfl
  | cons e rest ih =>
    rcases processEntry_cases st e with h | ⟨idx, h1, hf, h⟩
    · rw [List.foldl_cons, h, matchedEntries_cons_skip st e rest h, ih st]
    · rw [List.foldl_cons, ih (processEntry st e),
        matchedEntries_cons_matched st e rest h1 idx hf, List.foldl_cons]

theorem foldl_filter_hashKeeps (es : List Entry) (st : SpliceSt)
    (hb : ∀ e ∈ es, ∀ b ∈ buildBlock e.indent (pyStrip e.comment),
      hashKeeps b = false) :
    (es.foldl processEntry st).lines.filter hashKeeps =
      st.lines.filter hashKeeps := by
  induction es generalizing st with
  | nil => rfl
  | cons e rest ih =>
    rw [List.foldl_cons,
      ih (processEntry st e) (fun x hx => hb x (by simp [hx]))]
    rcases processEntry_cases st e with h | ⟨idx, _, _, h⟩
    · rw [h]
    · rw [h]
      exact filter_insertBlock hashKeeps _ idx st.lines (hb e (by simp))

theorem foldl_no_newline (es : List Entry) (st : SpliceSt)
    (h : ∀ l ∈ st.lines, '\n' ∉ l) :
    ∀ l ∈ (es.foldl processEntry st).lines, '\n' ∉ l := by
  induction es generalizing st with
  | nil => exact h
  | cons e rest ih =>
    rw [List.foldl_cons]
    refine ih (processEntry st e) ?_
    intro l hl
    rcases processEntry_cases st e with hc | ⟨idx, _, _, hc⟩
    · rw [hc] at hl
      exact h l hl
    · rw [hc] at hl
      rcases mem_insertBlock _ idx st.lines l hl with hm | hm
      · exact no_newline_of_mem_buildBlock e.indent (pyStrip e.comment) l hm
      · exact h l hm

/-! ## The fingerprint filter against the specified removal rule -/

theorem startsW_hash_space (s : List Char) :
    startsW (cs "# ") s = (startsW (cs "#") s && secondIsSpace s) := by
  match s with
  | [] => rfl
  | [c] =>
    by_cases h1 : c = '#' <;>
      simp [startsW, List.isPrefixOf, secondIsSpace, h1, cs]
  | c1 :: c2 :: t =>
    by_cases h1 : c1 = '#' <;> by_cases h2 : c2 = ' ' <;>
      simp [startsW, List.isPrefixOf, secondIsSpace, h1, h2, cs, BEq.comm]

theorem not_shebang_of_hash_space (s : List Char)
    (h : startsW (cs "# ") s = true) : startsW (cs "#!") s = false := by
  match s with
  | [] => simp [startsW, List.isPrefixOf, cs] at h
  | [c] => simp [startsW, List.isPrefixOf, cs] at h
  | c1 :: c2 :: t =>
    simp [startsW, List.isPrefixOf, cs] at h ⊢
    intro _
    rw [← h.2]
    decide

/-- Per-line equivalence of the source's keep decision and the specified
removal rule. -/
theorem hashKeeps_eq_keepLineSpec (l : List Char) :
    hashKeeps l = keepLineSpec l := by
  unfold hashKeeps keepLineSpec
  rw [startsW_hash_space (pyStrip l)]
  by_cases hA : (startsW (cs "#") (pyStrip l) &&
      yardTags.any (fun t => containsSub t (pyStrip l))) = true
  · rw [if_pos hA, hA]
    simp
  · rw [if_neg hA]
    rw [Bool.not_eq_true] at hA
    rw [hA]
    by_cases hB : (startsW (cs "#") (pyStrip l) && secondIsSpace (pyStrip l)) = true
    · rw [if_pos hB, hB]
      have hsheb : startsW (cs "#!") (pyStrip l) = false :=
        not_shebang_of_hash_space (pyStrip l)
          (by rw [startsW_hash_space (pyStrip l)]; exact hB)
      rw [hsheb]
      cases hc1 : containsSub (cs "coding:") (pyStrip l) <;>
        cases hc2 : containsSub (cs "encoding:") (pyStrip l) <;> simp
    · rw [if_neg hB]
      rw [Bool.not_eq_true] at hB
      rw [hB]
      simp

/-! ## Digest shape lemmas -/

theorem sha256_length (m : List Nat) : (sha256 m).length = 32 := by
  simp [sha256, wordBytes]

theorem byteHex_flatten_length (bs : List Nat) :
    ((bs.map byteHex).flatten).length = 2 * bs.length := by
  induction bs with
  | nil => rfl
  | cons b rest ih =>
    simp [byteHex, ih]
    omega

theorem sha256hex_length (m : List Nat) : (sha256hex m).length = 64 := by
  rw [sha256hex, byteHex_flatten_length, sha256_length]

theorem hexDigit_mem_hexChars (n : Nat) (h : n < 16) : hexDigit n ∈ hexChars := by
  have hb : ∀ m, m < 16 → hexDigit m ∈ hexChars := by decide
  exact hb n h

theorem mem_hexChars_of_mem_sha256hex (m : List Nat) (c : Char)
    (hc : c ∈ sha256hex m) : c ∈ hexChars := by
  rw [sha256hex] at hc
  rcases List.mem_flatten.mp hc with ⟨l, hl, hcl⟩
  rcases List.mem_map.mp hl with ⟨b, _, hbe⟩
  subst hbe
  rcases List.mem_cons.mp hcl with h | h
  · subst h
    exact hexDigit_mem_hexChars _ (Nat.mod_lt _ (by norm_num))
  · rcases List.mem_singleton.mp h with rfl
    exact hexDigit_mem_hexChars _ (Nat.mod_lt _ (by norm_num))

/-! ## Claim theorems -/

/-- C1 (code evaluation at the failing input): with a one-line source
`"def foo(x)"` and two entries anchored on that same line, the second
entry re-matches the line the first entry already annotated, and both
annotation blocks end up inserted for the same original source line.
The `inserted_at_lines` mark written by the first entry points at the
first line of its own inserted block (the insertion shifted the matched
line), so it does not block the re-match. -/
theorem insert_comments_double_annotates_line :
    insertCommentsLines [cs "def foo(x)"]
      [⟨cs "def foo(x)", 0, cs "# first"⟩, ⟨cs "def foo(x)", 0, cs "# second"⟩] =
      [cs "# first", cs "# second", cs "def foo(x)"] := by
  decide

/-- C2: splicing only inserts: every original line survives unmodified
and in its original relative order (the original line list is a sublist
of the result), and the line count grows by exactly the sum of the
inserted block lengths over the matched entries. -/
theorem insert_comments_insertion_only (T : List Char) (es : List Entry) :
    List.Sublist (splitNl T) (splitNl (insert_comments T es)) ∧
    (splitNl (insert_comments T es)).length =
      (splitNl T).length +
        ((matchedEntries ⟨splitNl T, []⟩ es).map
          (fun e => (buildBlock e.indent (pyStrip e.comment)).length)).sum := by
  cases es with
  | nil =>
    constructor
    · exact List.Sublist.refl _
    · rfl
  | cons e0 rest =>
    have hL : insertCommentsLines (splitNl T) (e0 :: rest) =
        ((e0 :: rest).foldl processEntry ⟨splitNl T, []⟩).lines := rfl
    have hsub : List.Sublist (splitNl T)
        (insertCommentsLines (splitNl T) (e0 :: rest)) := by
      rw [hL]
      exact foldl_lines_sublist (e0 :: rest) ⟨splitNl T, []⟩
    have hne : insertCommentsLines (splitNl T) (e0 :: rest) ≠ [] := by
      intro h0
      rw [h0] at hsub
      exact splitNl_ne_nil T (List.sublist_nil.mp hsub)
    have hnl : ∀ l ∈ insertCommentsLines (splitNl T) (e0 :: rest), '\n' ∉ l := by
      rw [hL]
      exact foldl_no_newline (e0 :: rest) ⟨splitNl T, []⟩
        (fun l hl => no_newline_of_mem_splitNl T l hl)
    have hsplit : splitNl (insert_comments T (e0 :: rest)) =
        insertCommentsLines (splitNl T) (e0 :: rest) := by
      rw [insert_comments, if_neg (by simp)]
      exact splitNl_joinNl _ hne hnl
    rw [hsplit]
    constructor
    · exact hsub
    · rw [hL]
      exact foldl_lines_length (e0 :: rest) ⟨splitNl T, []⟩

/-- C3 (counterexample): an annotation block containing a blank spacing
line changes the fingerprint, because `compute_code_hash` retains blank
lines: the claim's allowance for blank lines inside blocks is false. -/
theorem blank_line_block_changes_fingerprint :
    compute_code_hash (insert_comments (cs "x = 1")
      [⟨cs "x = 1", 0, cs "# sets x\n\n# more"⟩]) ≠
      compute_code_hash (cs "x = 1") := by
  decide

/-- C3 (amended): if every line of every entry's built block is removed
by the fingerprint's filter (documentation comment lines; in particular
no blank lines, which the filter keeps), then splicing leaves the
fingerprint unchanged. -/
theorem fingerprint_annotation_invariant (T : List Char) (es : List Entry)
    (h : ∀ e ∈ es, ∀ b ∈ buildBlock e.indent (pyStrip e.comment),
      hashKeeps b = false) :
    compute_code_hash (insert_comments T es) = compute_code_hash T := by
  cases es with
  | nil => rfl
  | cons e0 rest =>
    have hL : insertCommentsLines (splitNl T) (e0 :: rest) =
        ((e0 :: rest).foldl processEntry ⟨splitNl T, []⟩).lines := rfl
    have hsub : List.Sublist (splitNl T)
        (insertCommentsLines (splitNl T) (e0 :: rest)) := by
      rw [hL]
      exact foldl_lines_sublist (e0 :: rest) ⟨splitNl T, []⟩
    have hne : insertCommentsLines (splitNl T) (e0 :: rest) ≠ [] := by
      intro h0
      rw [h0] at hsub
      exact splitNl_ne_nil T (List.sublist_nil.mp hsub)
    have hnl : ∀ l ∈ insertCommentsLines (splitNl T) (e0 :: rest), '\n' ∉ l := by
      rw [hL]
      exact foldl_no_newline (e0 :: rest) ⟨splitNl T, []⟩
        (fun l hl => no_newline_of_mem_splitNl T l hl)
    have hsplit : splitNl (insert_comments T (e0 :: rest)) =
        insertCommentsLines (splitNl T) (e0 :: rest) := by
      rw [insert_comments, if_neg (by simp)]
      exact splitNl_joinNl _ hne hnl
    have hfilter : code_lines (insert_comments T (e0 :: rest)) = code_lines T := by
      rw [code_lines, hsplit, hL, foldl_filter_hashKeeps (e0 :: rest) ⟨splitNl T, []⟩ h]
      rfl
    rw [compute_code_hash, hfilter, compute_code_hash]

/-- C3 witness: a tag-only annotation block keeps the fingerprint. -/
theorem fingerprint_annotation_invariant_witness :
    compute_code_hash (insert_comments (cs "def foo(x)\nend")
      [⟨cs "def foo(x)", 2, cs "# does foo\n# @param x [Int] the input"⟩]) =
      compute_code_hash (cs "def foo(x)\nend") := by
  apply fingerprint_annotation_invariant
  decide

/-- C4 (code evaluation at the failing input): a file with two lines
containing `"def bar"` and two entries anchored on `"def bar"`: the
second entry again matches the FIRST occurrence (its index is no longer
marked after the first insertion shifted everything), so both blocks
stack before the first occurrence and the second occurrence receives
nothing — not the claimed first-entry-first-occurrence /
second-entry-second-occurrence pairing. -/
theorem second_entry_rematches_first_occurrence :
    insertCommentsLines [cs "def bar(a)", cs "x", cs "def bar(b)"]
      [⟨cs "def bar", 0, cs "# one"⟩, ⟨cs "def bar", 0, cs "# two"⟩] =
      [cs "# one", cs "# two", cs "def bar(a)", cs "x", cs "def bar(b)"] := by
  decide

/-- C5: `is_file_processed` returns true exactly when incremental mode
is on, a manifest record exists for the path, the output artifact
exists, the source file reads successfully, and the stored hash equals
the freshly computed `compute_code_hash`; the fallible read is modelled
by an `Option`, so every error path is a `false` return, never an
exception. -/
theorem is_file_processed_iff (ctx : SkipCtx) (path : List Char) :
    is_file_processed ctx path = true ↔
      ctx.incremental = true ∧
      ∃ info, lookupPF path ctx.processed_files = some info ∧
        ctx.output_exists = true ∧
        ∃ content, ctx.read_content = some content ∧
          info.content_hash = some (compute_code_hash content) := by
  unfold is_file_processed
  cases hinc : ctx.incremental with
  | false => simp
  | true =>
    simp only [Bool.not_true, Bool.false_eq_true, if_false, true_and]
    cases hpf : lookupPF path ctx.processed_files with
    | none => simp
    | some info =>
      simp only [Option.some.injEq]
      cases hout : ctx.output_exists with
      | false => simp
      | true =>
        simp only [Bool.not_true, Bool.false_eq_true, if_false, true_and]
        cases hrc : ctx.read_content with
        | none => simp
        | some content =>
          by_cases hh : info.content_hash = some (compute_code_hash content) <;>
            simp [hh]

/-- C5 witness: a concrete context in which every condition holds and
the file is skipped. -/
theorem is_file_processed_iff_witness :
    is_file_processed
      ⟨true,
       [(cs "a.rb", ⟨cs "t0", cs "openai",
         some (compute_code_hash (cs "x = 1")), cs "a.rb"⟩)],
       true, some (cs "x = 1")⟩ (cs "a.rb") = true := by
  exact (is_file_processed_iff _ _).mpr
    ⟨rfl, ⟨_, rfl, rfl, ⟨cs "x = 1", rfl, rfl⟩⟩⟩

/-- C6: the lines `compute_code_hash` retains are exactly those the
claim describes (`keepLineSpec`, written from the claim's wording), and
the final fingerprint is exactly 16 characters, all hex digits. -/
theorem compute_code_hash_spec (content : List Char) :
    code_lines content = (splitNl content).filter keepLineSpec ∧
    (compute_code_hash content).length = 16 ∧
    ∀ c ∈ compute_code_hash content, c ∈ hexChars := by
  refine ⟨?_, ?_, ?_⟩
  · rw [code_lines, funext hashKeeps_eq_keepLineSpec]
  · rw [compute_code_hash, List.length_take, sha256hex_length]
    decide
  · intro c hc
    rw [compute_code_hash] at hc
    exact mem_hexChars_of_mem_sha256hex _ c (List.take_subset 16 _ hc)

/-- C6 witness: concrete instance of the digest-shape facts. -/
theorem compute_code_hash_spec_witness :
    (compute_code_hash (cs "x = 1")).length = 16 :=
  (compute_code_hash_spec (cs "x = 1")).2.1

/-- C7: for each line of the split comment text, the built block holds
the empty string when the line is blank, and the line prefixed with
exactly `indent` spaces otherwise, in order. -/
theorem buildBlock_spec (indent : Nat) (ct : List Char) :
    List.Forall₂ (fun src out =>
        ((pyStrip src).isEmpty = true → out = ([] : List Char)) ∧
        ((pyStrip src).isEmpty = false →
          out = List.replicate indent ' ' ++ src))
      (splitNl ct) (buildBlock indent ct) := by
  unfold buildBlock
  induction splitNl ct with
  | nil => exact List.Forall₂.nil
  | cons cl rest ih =>
    refine List.Forall₂.cons ⟨?_, ?_⟩ ih
    · intro ht
      simp [ht]
    · intro hf
      simp [hf]

/-- C7 witness: concrete block with a blank spacing line. -/
theorem buildBlock_spec_witness :
    List.Forall₂ (fun src out =>
        ((pyStrip src).isEmpty = true → out = ([] : List Char)) ∧
        ((pyStrip src).isEmpty = false →
          out = List.replicate 2 ' ' ++ src))
      (splitNl (cs "# a\n\n# b")) (buildBlock 2 (cs "# a\n\n# b")) :=
  buildBlock_spec 2 (cs "# a\n\n# b")

/-- C8: an entry with an empty (stripped) anchor or comment leaves the
state untouched; so does an entry whose anchor is not found on an unused
line; and the whole output equals the output of splicing only the
run-matched entries — so one bad entry never aborts the remaining
entries. -/
theorem splice_skips_invalid :
    (∀ (st : SpliceSt) (e : Entry),
        (pyStrip e.anchor).isEmpty = true ∨ (pyStrip e.comment).isEmpty = true →
        processEntry st e = st) ∧
    (∀ (st : SpliceSt) (e : Entry),
        findAnchor (pyStrip e.anchor) st.used 0 st.lines = none →
        processEntry st e = st) ∧
    (∀ (lines : List (List Char)) (es : List Entry),
        insertCommentsLines lines es =
          insertCommentsLines lines (matchedEntries ⟨lines, []⟩ es)) := by
  refine ⟨?_, ?_, ?_⟩
  · intro st e h
    refine processEntry_skip_empty st e ?_
    rcases h with h | h <;> simp [h]
  · intro st e h
    exact processEntry_skip_nomatch st e h
  · intro lines es
    unfold insertCommentsLines
    rw [foldl_eq_matched es ⟨lines, []⟩]

/-- C8 witness: an empty-anchor entry is a no-op, and a mixed entry list
produces the same output as its matched-only sublist. -/
theorem splice_skips_invalid_witness :
    processEntry ⟨[cs "x = 1"], []⟩ ⟨cs "", 0, cs "# c"⟩ = ⟨[cs "x = 1"], []⟩ ∧
    insertCommentsLines [cs "x = 1"]
        [⟨cs "zz", 0, cs "# c"⟩, ⟨cs "x = 1", 0, cs "# d"⟩] =
      insertCommentsLines [cs "x = 1"]
        (matchedEntries ⟨[cs "x = 1"], []⟩
          [⟨cs "zz", 0, cs "# c"⟩, ⟨cs "x = 1", 0, cs "# d"⟩]) :=
  ⟨splice_skips_invalid.1 _ _ (Or.inl (by decide)),
   splice_skips_invalid.2.2 _ _⟩

/-- C9 (counterexample): the response `"42"` selects the whole response
as the array text; it parses as a JSON number, not a list, so the
source's `raise ValueError("Expected JSON array")` fires inside a `try`
whose `except json.JSONDecodeError` clause does not catch it: an
exception escapes `extract_comments_json` instead of the claimed empty
list. -/
theorem extract_comments_json_nonlist_error :
    jsonLoads (chooseJsonText (cs "42")) = some (Json.num (cs "42")) ∧
    extract_comments_json (cs "42") = Except.error (cs "Expected JSON array") ∧
    extract_comments_json (cs "42") ≠ Except.ok [] :=
  ⟨rfl, rfl, fun h => Except.noConfusion h⟩

/-- C9 (amended): the array text is selected fenced-block-first, then
first bracket-delimited array, then the whole response; text that fails
to parse as JSON at all yields the empty entry list (the decode error is
caught); a parsed JSON list is returned as is; but a parsed non-list
raises a ValueError that propagates to the caller. -/
theorem extract_comments_json_behavior (response : List Char) :
    (∀ cap, fencedCapture response = some cap →
        chooseJsonText response = pyStrip cap) ∧
    (fencedCapture response = none → ∀ seg, bracketSearch response = some seg →
        chooseJsonText response = seg) ∧
    (fencedCapture response = none → bracketSearch response = none →
        chooseJsonText response = pyStrip response) ∧
    (jsonLoads (chooseJsonText response) = none →
        extract_comments_json response = Except.ok []) ∧
    (∀ items, jsonLoads (chooseJsonText response) = some (Json.arr items) →
        extract_comments_json response = Except.ok items) ∧
    (∀ v, jsonLoads (chooseJsonText response) = some v →
        (∀ items, v ≠ Json.arr items) →
        extract_comments_json response = Except.error (cs "Expected JSON array")) := by
  refine ⟨?_, ?_, ?_, ?_, ?_, ?_⟩
  · intro cap hcap
    rw [chooseJsonText, hcap]
  · intro hfc seg hseg
    rw [chooseJsonText, hfc, hseg]
  · intro hfc hbs
    rw [chooseJsonText, hfc, hbs]
  · intro hjl
    rw [extract_comments_json, hjl]
  · intro items hjl
    rw [extract_comments_json, hjl]
  · intro v hjl hnl
    rw [extract_comments_json, hjl]
    cases v with
    | arr items => exact absurd rfl (hnl items)
    | null => rfl
    | bool b => rfl
    | num lx => rfl
    | str lx => rfl
    | obj kvs => rfl

/-- C9 witness: an unparseable response yields the empty entry list. -/
theorem extract_comments_json_behavior_witness :
    extract_comments_json (cs "no payload here") = Except.ok [] :=
  (extract_comments_json_behavior (cs "no payload here")).2.2.2.1 rfl

/-- C10: recording a failure leaves the `processed_files` map (and hence
every prior success record) untouched, puts the path in `failed_files`,
is idempotent, and appends exactly one occurrence when the path was not
already recorded as failed. -/
theorem record_failure_spec (m : Manifest) (path : List Char)
    (content read_content : Option (List Char)) (ts prov fname : List Char) :
    (mark_file_processed m path false content read_content ts prov fname).processed_files =
        m.processed_files ∧
    path ∈ (mark_file_processed m path false content read_content ts prov fname).failed_files ∧
    mark_file_processed
        (mark_file_processed m path false content read_content ts prov fname)
        path false content read_content ts prov fname =
      mark_file_processed m path false content read_content ts prov fname ∧
    (path ∉ m.failed_files →
      (mark_file_processed m path false content read_content ts prov fname).failed_files =
          m.failed_files ++ [path] ∧
      (mark_file_processed m path false content read_content ts prov fname).failed_files.count
          path = 1) := by
  unfold mark_file_processed
  simp only [Bool.false_eq_true, if_false]
  by_cases hmem : m.failed_files.contains path
  · rw [if_pos hmem]
    have hmem2 : path ∈ m.failed_files := by
      simpa using hmem
    refine ⟨rfl, hmem2, ?_, ?_⟩
    · rw [if_pos hmem]
    · intro hnot
      exact absurd hmem2 hnot
  · rw [if_neg hmem]
    have hmem2 : path ∉ m.failed_files := by
      simpa using hmem
    refine ⟨rfl, by simp, ?_, ?_⟩
    · rw [if_pos (by simp)]
    · intro _
      refine ⟨rfl, ?_⟩
      rw [List.count_append]
      rw [List.count_eq_zero.mpr hmem2]
      simp [List.count_cons]

/-- C10 witness: concrete manifest with one success record; recording a
failure for another path twice yields one failure entry and keeps the
success record. -/
theorem record_failure_spec_witness :
    (mark_file_processed
        ⟨[(cs "ok.rb", ⟨cs "t0", cs "openai", none, cs "ok.rb"⟩)], []⟩
        (cs "bad.rb") false none none (cs "t1") (cs "openai")
        (cs "bad.rb")).processed_files =
      [(cs "ok.rb", ⟨cs "t0", cs "openai", none, cs "ok.rb"⟩)] ∧
    (mark_file_processed
        ⟨[(cs "ok.rb", ⟨cs "t0", cs "openai", none, cs "ok.rb"⟩)], []⟩
        (cs "bad.rb") false none none (cs "t1") (cs "openai")
        (cs "bad.rb")).failed_files.count (cs "bad.rb") = 1 :=
  ⟨(record_failure_spec _ _ _ _ _ _ _).1,
   ((record_failure_spec _ _ _ _ _ _ _).2.2.2 (by decide)).2⟩
